import Mathlib

/-!
# SCP page script (`scripts/main.js`): a shallow embedding

JavaScript strings are modelled as lists of characters (`Str`).  The operations the
script applies to strings (`split`, `pop`, `replace`, `toUpperCase`, `trim`, `join`,
the regular expression `/\bN\/A\b/g`) are embedded as structurally recursive list
functions so that every definition evaluates on concrete inputs.

Platform services the script calls but does not define (the HTML parser behind
`innerHTML`/`textContent`, the speech engine) are parameters or explicit state.
-/

namespace SCP

/-- A JavaScript string, as its sequence of characters. -/
abbrev Str := List Char

/-! ## String primitives -/

/-- JavaScript `s.split(sep)` for a one-character separator: the pieces between
separators; the empty string splits into one empty piece. -/
def split (sep : Char) : Str → List Str
  | [] => [[]]
  | c :: cs =>
    if c = sep then [] :: split sep cs
    else
      match split sep cs with
      | [] => [[c]]
      | s :: ss => (c :: s) :: ss

/-- JavaScript `arr.pop()`: the last element, `none` (undefined) on an empty array. -/
def pop {α : Type} (arr : List α) : Option α := arr.getLast?

/-- JavaScript `s.replace(pat, rep)` with a string pattern: only the first
occurrence of `pat`, wherever it stands in `s`, is replaced by `rep`. -/
def replaceFirst (pat rep : Str) : Str → Str
  | [] => if pat.isPrefixOf [] then rep else []
  | c :: cs =>
    if pat.isPrefixOf (c :: cs) then rep ++ (c :: cs).drop pat.length
    else c :: replaceFirst pat rep cs

/-- JavaScript `s.toUpperCase()` on the ASCII range (a `location.pathname` is
percent-encoded, hence ASCII). -/
def toUpperCase (s : Str) : Str := s.map Char.toUpper

/-- JavaScript `arr.join(sep)` on an array of strings. -/
def join (sep : Str) : List Str → Str
  | [] => []
  | [s] => s
  | s :: t :: rest => s ++ sep ++ join sep (t :: rest)

/-! ## Identifier resolver -/

/-- Source `getSCPIdFromURL`, with `window.location.pathname` as the argument:
`path.split('/').pop().replace('.html', '')` and then `toUpperCase()`.
The result is `none` where `pop()` would give `undefined`. -/
def getSCPIdFromURL (path : Str) : Option Str :=
  match pop (split '/' path) with
  | none => none
  | some last =>
    let fileName := replaceFirst ".html".toList [] last
    some (toUpperCase fileName)

/-- The resolver as the specification words it: the final segment with a trailing
`.html` removed (and nothing else), upper-cased. -/
def resolveSpec (path : Str) : Option Str :=
  match pop (split '/' path) with
  | none => none
  | some last =>
    if ".html".toList.isSuffixOf last then
      some (toUpperCase (last.take (last.length - 5)))
    else some (toUpperCase last)

/-! ## Text sanitizer: the placeholder filter -/

/-- The class `\w` of a JavaScript regular expression without the `u`/`i` flags:
ASCII letters, digits and the underscore. -/
def isWordChar (c : Char) : Bool :=
  (decide (48 ≤ c.toNat) && decide (c.toNat ≤ 57)) ||
  (decide (65 ≤ c.toNat) && decide (c.toNat ≤ 90)) ||
  decide (c.toNat = 95) ||
  (decide (97 ≤ c.toNat) && decide (c.toNat ≤ 122))

/-- The characters `String.prototype.trim` strips: ECMAScript WhiteSpace and
LineTerminator code points. -/
def isWhiteSpace (c : Char) : Bool :=
  (decide (9 ≤ c.toNat) && decide (c.toNat ≤ 13)) ||
  decide (c.toNat = 32) || decide (c.toNat = 160) || decide (c.toNat = 5760) ||
  (decide (8192 ≤ c.toNat) && decide (c.toNat ≤ 8202)) ||
  decide (c.toNat = 8232) || decide (c.toNat = 8233) || decide (c.toNat = 8239) ||
  decide (c.toNat = 8287) || decide (c.toNat = 12288) || decide (c.toNat = 65279)

/-- JavaScript `s.trimStart()`. -/
def trimStart (s : Str) : Str := s.dropWhile isWhiteSpace

/-- JavaScript `s.trimEnd()`. -/
def trimEnd (s : Str) : Str := (s.reverse.dropWhile isWhiteSpace).reverse

/-- JavaScript `s.trim()`. -/
def trim (s : Str) : Str := trimEnd (trimStart s)

/-- The assertion `\b` looking forward from the end of a match: the rest of the
input is empty or starts with a non-word character. -/
def boundaryAfter : Str → Bool
  | [] => true
  | c :: _ => !isWordChar c

/-- Source `text.replace(/\bN\/A\b/g, '')`: the left-to-right scan of the global
regular expression.  `prevWord` tells whether the character just before the scan
position (in the input) is a word character; at the start of the input it is
`false`.  A match at the scan position needs `\b` before `N` (so `prevWord` is
`false`), the three characters `N`, `/`, `A`, and `\b` after `A`; a match is
replaced by the empty string and the scan resumes right after it. -/
def replaceNA : Bool → Str → Str
  | _, [] => []
  | _, [c] => [c]
  | _, [c, d] => c :: replaceNA (isWordChar c) [d]
  | prevWord, c :: d :: e :: rest =>
    if c = 'N' ∧ d = '/' ∧ e = 'A' ∧ prevWord = false ∧ boundaryAfter rest = true then
      replaceNA true rest
    else c :: replaceNA (isWordChar c) (d :: e :: rest)

/-- Source `filterText`: `text.replace(/\bN\/A\b/g, '').trim()`. -/
def filterText (text : Str) : Str := trim (replaceNA false text)

/-! ### The placeholder filter as the specification words it -/

/-- The character at index `i` is absent or is not a word character. -/
def nonWordAt (t : Str) (i : Nat) : Bool :=
  match t[i]? with
  | none => true
  | some c => !isWordChar c

/-- A whole-word occurrence of the token `N/A` starts at index `i` of `t`: the
three characters are there, and the occurrence is neither immediately preceded nor
immediately followed by a letter, digit or underscore. -/
def occAt (t : Str) (i : Nat) : Bool :=
  t[i]? == some 'N' && t[i + 1]? == some '/' && t[i + 2]? == some 'A' &&
  (i == 0 || nonWordAt t (i - 1)) && nonWordAt t (i + 3)

/-- Index `j` of `t` lies inside a whole-word occurrence of `N/A`. -/
def covered (t : Str) (j : Nat) : Bool :=
  occAt t j || (decide (1 ≤ j) && occAt t (j - 1)) || (decide (2 ≤ j) && occAt t (j - 2))

/-- The text `t` with every whole-word occurrence of `N/A` deleted: the characters
of `t`, in order, whose index lies in no whole-word occurrence. -/
def deleteWholeWordNA (t : Str) : Str :=
  (t.enum.filter (fun p => !covered t p.1)).map Prod.snd

/-! ### Auxiliary notions used in the proofs about the filter -/

/-- The regular expression matches at the head of `l`, when `prevWord` tells whether
the character before `l` is a word character. -/
def matchHere (prevWord : Bool) (l : Str) : Bool :=
  !prevWord && (l.take 3 == ['N', '/', 'A']) && boundaryAfter (l.drop 3)

/-- Whether the last character of `pre` is a word character (`false` for the empty
string): the value of `prevWord` once the scan has consumed `pre`. -/
def lastWord (pre : Str) : Bool :=
  match pre.getLast? with
  | none => false
  | some c => isWordChar c

/-- Some suffix position of `l` carries a match of the regular expression. -/
def hasOcc : Bool → Str → Bool
  | _, [] => false
  | prevWord, c :: rest => matchHere prevWord (c :: rest) || hasOcc (isWordChar c) rest

/-! ## Text sanitizer: markup stripping and special characters -/

/-- The HTML parser of the host page, which the script reaches through a temporary
`div`: for a markup string assigned to `innerHTML`, the `textContent` and the
`innerText` the element then reports. -/
structure HtmlParser where
  textContent : Str → Str
  innerText : Str → Str

/-- Source `stripHtmlTags`: the empty string for a falsy text, else
`tempDiv.textContent || tempDiv.innerText || ''`. -/
def stripHtmlTags (P : HtmlParser) (text : Str) : Str :=
  if text = [] then []
  else if P.textContent text ≠ [] then P.textContent text
  else if P.innerText text ≠ [] then P.innerText text
  else []

/-- JavaScript `s.replace(/pat/g, rep)` for a literal, non-empty pattern: every
occurrence found by the left-to-right scan is replaced; `skip` counts the characters
of a match still to be passed over. -/
def replaceAllAux (pat rep : Str) : Nat → Str → Str
  | _, [] => []
  | skip + 1, _ :: cs => replaceAllAux pat rep skip cs
  | 0, c :: cs =>
    if pat.isPrefixOf (c :: cs) then rep ++ replaceAllAux pat rep (pat.length - 1) cs
    else c :: replaceAllAux pat rep 0 cs

/-- JavaScript `s.replace(/pat/g, rep)` for a literal, non-empty pattern. -/
def replaceAll (pat rep : Str) (s : Str) : Str := replaceAllAux pat rep 0 s

/-- Source `replaceSpecialCharacters`. -/
def replaceSpecialCharacters (text : Str) : Str :=
  replaceAll "&gt;".toList ">".toList
    (replaceAll "&lt;".toList "<".toList
      (replaceAll "#".toList "number".toList text))

/-! ## Data model -/

/-- The `content` of an appendix or addendum entry: one string or an array of
strings. -/
inductive Content where
  | str (s : Str)
  | arr (l : List Str)
  deriving DecidableEq

/-- An entry of the `appendix` or `addendum` list. -/
structure Entry where
  title : Str
  content : Content
  deriving DecidableEq

/-- The record `scpItem` parsed from `data/<id>.json`; `none` is an absent field. -/
structure Record where
  item : Option Str
  objectClass : Option Str
  image : Option Str
  description : Option (List Str)
  specialContainmentProcedure : Option (List Str)
  chronologicalHistory : Option (List Str)
  spaceTimeAnomalies : Option (List Str)
  additionalNotes : Option (List Str)
  appendix : Option (List Entry)
  addendum : Option (List Entry)
  reference : Option (List Str)
  deriving DecidableEq

/-- The record with every field absent. -/
def Record.empty : Record :=
  ⟨none, none, none, none, none, none, none, none, none, none, none⟩

/-- JavaScript truthiness of an optional string: present and not the empty string. -/
def truthyStr : Option Str → Bool
  | none => false
  | some s => !s.isEmpty

/-- JavaScript `${content}` for an entry content: a string as is, an array through
`Array.prototype.toString`, which joins with a comma. -/
def contentToString : Content → Str
  | Content.str s => s
  | Content.arr l => join ",".toList l

/-- The expression `Array.isArray(c) ? c.join(sep) : c` of the source. -/
def contentJoin (sep : Str) : Content → Str
  | Content.str s => s
  | Content.arr l => join sep l

/-! ## Field renderer -/

/-- A display target: the values last assigned to the properties the script writes. -/
structure Element where
  textContent : Str
  innerHTML : Str
  display : Str
  src : Str
  deriving DecidableEq

/-- The display targets the script looks up by id. -/
structure Page where
  item : Element
  objectClass : Element
  scpImage : Element
  description : Element
  specialContainmentProcedure : Element
  chronologicalHistory : Element
  spaceTimeAnomalies : Element
  additionalNotes : Element
  appendix : Element
  addendum : Element
  reference : Element
  deriving DecidableEq

/-- A page whose targets have not been written yet. -/
def Page.blank : Page :=
  let e : Element := ⟨[], [], [], []⟩
  ⟨e, e, e, e, e, e, e, e, e, e, e⟩

/-- The hide-when-absent rule for a list of strings: `innerHTML` and `display:block`
when the field is present, `display:none` otherwise. -/
def renderList (sep : Str) (field : Option (List Str)) (el : Element) : Element :=
  match field with
  | some l => { el with innerHTML := join sep l, display := "block".toList }
  | none => { el with display := "none".toList }

/-- One appendix entry, as the source `map` callback writes it. -/
def appendixEntry (e : Entry) : Str :=
  "<strong>".toList ++ e.title ++ "</strong><br>".toList ++ contentJoin "<br>".toList e.content

/-- One addendum entry, as the source `map` callback writes it. -/
def addendumEntry (e : Entry) : Str :=
  "<strong>".toList ++ e.title ++ "</strong><br>".toList ++ contentToString e.content

/-- Source `initializePage`, the part that populates the page. -/
def render (r : Record) (p : Page) : Page :=
  { item := { p.item with
      textContent := if truthyStr r.item then r.item.getD [] else "N/A".toList }
    objectClass := { p.objectClass with
      textContent := if truthyStr r.objectClass then r.objectClass.getD [] else "N/A".toList }
    scpImage :=
      if truthyStr r.image then
        { p.scpImage with src := "images/".toList ++ r.image.getD [], display := "block".toList }
      else { p.scpImage with display := "none".toList }
    description := { p.description with
      innerHTML := match r.description with
        | some l => join "<br>".toList l
        | none => "N/A".toList }
    specialContainmentProcedure := { p.specialContainmentProcedure with
      innerHTML := match r.specialContainmentProcedure with
        | some l => join "<br>".toList l
        | none => "N/A".toList }
    chronologicalHistory := renderList "<br>".toList r.chronologicalHistory p.chronologicalHistory
    spaceTimeAnomalies := renderList "<br>".toList r.spaceTimeAnomalies p.spaceTimeAnomalies
    additionalNotes := renderList "<br>".toList r.additionalNotes p.additionalNotes
    appendix :=
      match r.appendix with
      | some l => { p.appendix with
          innerHTML := join "<br><br>".toList (l.map appendixEntry), display := "block".toList }
      | none => { p.appendix with display := "none".toList }
    addendum :=
      match r.addendum with
      | some l => { p.addendum with
          innerHTML := join "<br><br>".toList (l.map addendumEntry), display := "block".toList }
      | none => { p.addendum with display := "none".toList }
    reference := renderList "<br><br>".toList r.reference p.reference }

/-! ## Transcript builder -/

/-- The sanitising applied to every field: `replaceSpecialCharacters(stripHtmlTags(s))`. -/
def sanitize (P : HtmlParser) (s : Str) : Str := replaceSpecialCharacters (stripHtmlTags P s)

/-- The transcript text of an appendix entry: title, colon, content joined by spaces. -/
def appendixText (e : Entry) : Str :=
  e.title ++ ": ".toList ++ contentJoin " ".toList e.content

/-- The transcript text of an addendum entry: title, colon, `${item.content}`. -/
def addendumText (e : Entry) : Str :=
  e.title ++ ": ".toList ++ contentToString e.content

/-- The statement guarded by `field && field !== 'N/A'` for the two scalar fields. -/
def scalarLine (P : HtmlParser) (label : Str) (field : Option Str) : Str :=
  match field with
  | some s =>
    if s ≠ [] ∧ s ≠ "N/A".toList then label ++ ": ".toList ++ sanitize P s ++ "\n".toList
    else []
  | none => []

/-- The statement guarded by `field && field.length > 0` for the list fields; `text`
is the joined text of the field.  The template literal of these statements ends in
a closing brace before the newline. -/
def listLine {α : Type} (P : HtmlParser) (label : Str) (field : Option (List α))
    (text : List α → Str) : Str :=
  match field with
  | some l =>
    if 0 < l.length then label ++ ": ".toList ++ sanitize P (text l) ++ "\x7d\n".toList
    else []
  | none => []

/-- Source click handler, lines 147 to 178: the text assembled by the ten guarded
`fullText += ...` statements, in source order. -/
def fullText (P : HtmlParser) (r : Record) : Str :=
  let t : Str := []
  let t := t ++ scalarLine P "Item Number".toList r.item
  let t := t ++ scalarLine P "Object Class".toList r.objectClass
  let t := t ++ listLine P "Special Containment Procedure".toList r.specialContainmentProcedure
    (join " ".toList)
  let t := t ++ listLine P "Description".toList r.description (join " ".toList)
  let t := t ++ listLine P "Chronological History".toList r.chronologicalHistory
    (join " ".toList)
  let t := t ++ listLine P "Space-Time Anomalies".toList r.spaceTimeAnomalies (join " ".toList)
  let t := t ++ listLine P "Additional Notes".toList r.additionalNotes (join " ".toList)
  let t := t ++ listLine P "Appendix".toList r.appendix
    (fun l => join " ".toList (l.map appendixText))
  let t := t ++ listLine P "Addendum".toList r.addendum
    (fun l => join " ".toList (l.map addendumText))
  let t := t ++ listLine P "Reference".toList r.reference (join " ".toList)
  t

/-- The text the click handler hands to `toggleSpeak`: `filterText(fullText)`. -/
def narrationText (P : HtmlParser) (r : Record) : Str := filterText (fullText P r)

/-- The fields of the transcript. -/
inductive Field where
  | item | objectClass | specialContainmentProcedure | description | chronologicalHistory
  | spaceTimeAnomalies | additionalNotes | appendix | addendum | reference
  deriving DecidableEq

/-- The fixed order in which the handler visits the fields. -/
def fieldOrder : List Field :=
  [Field.item, Field.objectClass, Field.specialContainmentProcedure, Field.description,
   Field.chronologicalHistory, Field.spaceTimeAnomalies, Field.additionalNotes,
   Field.appendix, Field.addendum, Field.reference]

/-- The text the statement of one field appends to `fullText`. -/
def transcriptLine (P : HtmlParser) (r : Record) : Field → Str
  | Field.item => scalarLine P "Item Number".toList r.item
  | Field.objectClass => scalarLine P "Object Class".toList r.objectClass
  | Field.specialContainmentProcedure =>
    listLine P "Special Containment Procedure".toList r.specialContainmentProcedure
      (join " ".toList)
  | Field.description => listLine P "Description".toList r.description (join " ".toList)
  | Field.chronologicalHistory =>
    listLine P "Chronological History".toList r.chronologicalHistory (join " ".toList)
  | Field.spaceTimeAnomalies =>
    listLine P "Space-Time Anomalies".toList r.spaceTimeAnomalies (join " ".toList)
  | Field.additionalNotes =>
    listLine P "Additional Notes".toList r.additionalNotes (join " ".toList)
  | Field.appendix =>
    listLine P "Appendix".toList r.appendix (fun l => join " ".toList (l.map appendixText))
  | Field.addendum =>
    listLine P "Addendum".toList r.addendum (fun l => join " ".toList (l.map addendumText))
  | Field.reference => listLine P "Reference".toList r.reference (join " ".toList)

/-- The transcript built with the line of field `f` skipped. -/
def fullTextSkipping (f : Field) (P : HtmlParser) (r : Record) : Str :=
  ((fieldOrder.filter (fun g => g ≠ f)).map (transcriptLine P r)).flatten

/-! ## Voice selector and playback controller -/

/-- A `SpeechSynthesisVoice`, as far as the script reads it. -/
structure Voice where
  name : Str
  lang : Str
  deriving DecidableEq

/-- The id of a DOM element (the `button` argument of `toggleSpeak`). -/
abbrev ElemId := Str

/-- A `SpeechSynthesisUtterance` as the script builds it.  The `onend` handler the
script installs is a closure over `button` only; it is recorded by that button, and
`none` means no handler is installed. -/
structure Utterance where
  text : Str
  voice : Option Voice
  onend : Option ElemId
  deriving DecidableEq

/-- The mutable state the script works on: its two module variables, the
`textContent` of the buttons, and `spoken`, the utterances handed to
`speechSynthesis.speak` since the last `speechSynthesis.cancel()`. -/
structure State where
  currentUtterance : Option Utterance
  selectedVoice : Option Voice
  label : ElemId → Str
  spoken : List Utterance

/-- The state when the script is loaded: both module variables are `null`. -/
def State.init (label : ElemId → Str) : State :=
  { currentUtterance := none, selectedVoice := none, label := label, spoken := [] }

/-- Source `loadVoices`: the body of the `onvoiceschanged` handler, run with the list
`speechSynthesis.getVoices()` returns. -/
def onvoiceschanged (voices : List Voice) (s : State) : State :=
  let selected := voices.find? (fun voice => voice.lang == "en-KE".toList)
  let selected :=
    if selected.isNone then voices.find? (fun voice => "en".toList.isPrefixOf voice.lang)
    else selected
  { s with selectedVoice := selected }

/-- Source `toggleSpeak`. -/
def toggleSpeak (text : Str) (button : ElemId) (s : State) : State :=
  if s.currentUtterance.isSome then
    { s with
      spoken := []
      currentUtterance := none
      label := Function.update s.label button "Play Description".toList }
  else
    let u : Utterance := { text := text, voice := none, onend := none }
    let u := if s.selectedVoice.isSome then { u with voice := s.selectedVoice } else u
    let u := { u with onend := some button }
    { s with
      currentUtterance := some u
      spoken := s.spoken ++ [u]
      label := Function.update s.label button "Stop Description".toList }

/-- The speech engine fires the `end` event of utterance `u`: the handler installed
on `u`, if any, runs. -/
def fireEnd (u : Utterance) (s : State) : State :=
  match u.onend with
  | none => s
  | some button =>
    { s with
      currentUtterance := none
      label := Function.update s.label button "Play Description".toList }

/-- The events the controller reacts to. -/
inductive Event where
  | toggle (text : Str) (button : ElemId)
  | ended (u : Utterance)

/-- One event applied to the state. -/
def step (s : State) : Event → State
  | Event.toggle text button => toggleSpeak text button s
  | Event.ended u => fireEnd u s

/-- A sequence of events applied in order. -/
def run (s : State) (evs : List Event) : State := evs.foldl step s

/-- The event concerns button `b` only: a toggle of `b`, or the end of an utterance
whose handler was installed by a toggle of `b`. -/
def Event.onButton (b : ElemId) : Event → Prop
  | Event.toggle _ button => button = b
  | Event.ended u => u.onend = some b

/-- The id of the page button the click handler passes to `toggleSpeak`. -/
def playDescription : ElemId := "playDescription".toList

/-- The task started by the first click of the scenario below, cancelled by the
second click. -/
def cancelledTask : Utterance :=
  { text := "first".toList, voice := none, onend := some playDescription }

/-- Three clicks in quick succession on the freshly loaded page: start a first task,
cancel it, start a second task. -/
def rapidClicks : State :=
  run (State.init (fun _ => "Play Description".toList))
    [Event.toggle "first".toList playDescription,
     Event.toggle "first".toList playDescription,
     Event.toggle "second".toList playDescription]

/-! ## The renderer and the transcript as the specification words them -/

/-- A structured-list entry as specified: the title between the tags `open` and
`close`, a line break, then the content, a sequence being joined by line breaks. -/
def entrySpec (opening closing : Str) (e : Entry) : Str :=
  opening ++ e.title ++ closing ++ "<br>".toList ++
    (match e.content with
     | Content.str s => s
     | Content.arr l => join "<br>".toList l)

/-- A structured list as specified: the entries with a blank line (`<br><br>`)
between consecutive entries. -/
def structuredListSpec (opening closing : Str) : List Entry → Str
  | [] => []
  | [e] => entrySpec opening closing e
  | e :: e2 :: rest =>
    entrySpec opening closing e ++ "<br><br>".toList ++
      structuredListSpec opening closing (e2 :: rest)

/-- The appendix of the specification example: `A` with content `x`, `y` and `B`
with content `z`. -/
def exampleEntries : List Entry :=
  [⟨"A".toList, Content.arr ["x".toList, "y".toList]⟩, ⟨"B".toList, Content.str "z".toList⟩]

/-- The HTML parser on markup-free text: the text itself. -/
def plainParser : HtmlParser := ⟨fun s => s, fun s => s⟩

/-- A transcript line as specified: label, colon, space, content, newline, for a
field that is present and non-empty; nothing otherwise. -/
def specLine (label : Str) (presentNonEmpty : Bool) (content : Str) : Str :=
  if presentNonEmpty then label ++ ": ".toList ++ content ++ "\n".toList else []

/-- A structured-list entry flattened as specified: title, colon, content, a
sequence being joined by spaces. -/
def entryTextSpec (e : Entry) : Str :=
  e.title ++ ": ".toList ++
    (match e.content with
     | Content.str s => s
     | Content.arr l => join " ".toList l)

/-- Present and non-empty, for a list field. -/
def nonEmptyList {α : Type} : Option (List α) → Bool
  | some l => !l.isEmpty
  | none => false

/-- The transcript before the final placeholder pass, as specified: one line per
present, non-empty field, in the fixed order. -/
def transcriptSpec (P : HtmlParser) (r : Record) : Str :=
  specLine "Item Number".toList (truthyStr r.item) (sanitize P (r.item.getD [])) ++
  specLine "Object Class".toList (truthyStr r.objectClass) (sanitize P (r.objectClass.getD [])) ++
  specLine "Special Containment Procedure".toList (nonEmptyList r.specialContainmentProcedure)
    (sanitize P (join " ".toList (r.specialContainmentProcedure.getD []))) ++
  specLine "Description".toList (nonEmptyList r.description)
    (sanitize P (join " ".toList (r.description.getD []))) ++
  specLine "Chronological History".toList (nonEmptyList r.chronologicalHistory)
    (sanitize P (join " ".toList (r.chronologicalHistory.getD []))) ++
  specLine "Space-Time Anomalies".toList (nonEmptyList r.spaceTimeAnomalies)
    (sanitize P (join " ".toList (r.spaceTimeAnomalies.getD []))) ++
  specLine "Additional Notes".toList (nonEmptyList r.additionalNotes)
    (sanitize P (join " ".toList (r.additionalNotes.getD []))) ++
  specLine "Appendix".toList (nonEmptyList r.appendix)
    (sanitize P (join " ".toList ((r.appendix.getD []).map entryTextSpec))) ++
  specLine "Addendum".toList (nonEmptyList r.addendum)
    (sanitize P (join " ".toList ((r.addendum.getD []).map entryTextSpec))) ++
  specLine "Reference".toList (nonEmptyList r.reference)
    (sanitize P (join " ".toList (r.reference.getD [])))

/-- The line starts with label, colon, space and the content, and ends with a
newline. -/
def LineShape (line label content : Str) : Prop :=
  ∃ mid : Str, line = label ++ ": ".toList ++ content ++ mid ++ "\n".toList

/-- Every entry of the list has a single string as content. -/
def allStringContent (l : List Entry) : Prop :=
  ∀ e ∈ l, ∃ s, e.content = Content.str s

/-! ## Theorems -/

theorem isWordChar_of_isWhiteSpace {c : Char} (h : isWhiteSpace c = true) :
    isWordChar c = false := by
  simp only [isWhiteSpace, isWordChar, Bool.or_eq_true, Bool.and_eq_true, decide_eq_true_eq,
    Bool.or_eq_false_iff, Bool.and_eq_false_iff, decide_eq_false_iff_not] at h ⊢
  omega

theorem replaceNA_cons (pw : Bool) (c : Char) (rest : Str) :
    replaceNA pw (c :: rest) =
      if matchHere pw (c :: rest) = true then replaceNA true (rest.drop 2)
      else c :: replaceNA (isWordChar c) rest := by
  rcases rest with _ | ⟨d, _ | ⟨e, r⟩⟩
  · simp [replaceNA, matchHere]
  · simp [replaceNA, matchHere]
  · simp only [replaceNA, matchHere, List.take, List.drop]
    by_cases h : c = 'N' ∧ d = '/' ∧ e = 'A' ∧ pw = false ∧ boundaryAfter r = true
    · obtain ⟨rfl, rfl, rfl, rfl, hb⟩ := h
      simp [hb]
    · rw [if_neg h, if_neg]
      intro hm
      apply h
      simp only [Bool.and_eq_true, Bool.not_eq_true', beq_iff_eq, List.cons.injEq, and_true] at hm
      tauto

theorem matchHere_true (l : Str) : matchHere true l = false := by
  simp [matchHere]

theorem matchHere_false_iff (l : Str) :
    matchHere false l = true ↔ ∃ r, l = 'N' :: '/' :: 'A' :: r ∧ boundaryAfter r = true := by
  rcases l with _ | ⟨c, _ | ⟨d, _ | ⟨e, r⟩⟩⟩
  · simp [matchHere]
  · simp [matchHere]
  · simp [matchHere]
  · simp only [matchHere, List.take, List.drop, Bool.not_false, Bool.true_and, Bool.and_eq_true,
      beq_iff_eq, List.cons.injEq, and_true]
    constructor
    · rintro ⟨⟨rfl, rfl, rfl⟩, hb⟩
      exact ⟨r, ⟨rfl, rfl, rfl, rfl⟩, hb⟩
    · rintro ⟨r2, ⟨rfl, rfl, rfl, rfl⟩, hb⟩
      exact ⟨⟨rfl, rfl, rfl⟩, hb⟩

theorem replaceNA_true_cons (c : Char) (rest : Str) :
    replaceNA true (c :: rest) = c :: replaceNA (isWordChar c) rest := by
  rw [replaceNA_cons, matchHere_true]
  simp

theorem replaceNA_nil (pw : Bool) : replaceNA pw [] = [] := by
  simp [replaceNA]

theorem boundaryAfter_replaceNA_true (l : Str) :
    boundaryAfter (replaceNA true l) = boundaryAfter l := by
  cases l with
  | nil => simp [replaceNA_nil]
  | cons c r => simp [replaceNA_true_cons, boundaryAfter]

theorem isWordChar_N : isWordChar 'N' = true := by decide

theorem isWordChar_slash : isWordChar '/' = false := by decide

theorem isWordChar_A : isWordChar 'A' = true := by decide

/-- When the scan at a word boundary starts its output with a word character, that
character is the head of the input and was copied. -/
theorem replaceNA_false_head_word {l o : Str} {x : Char} (hx : isWordChar x = true)
    (h : replaceNA false l = x :: o) : ∃ r, l = x :: r ∧ o = replaceNA true r := by
  cases l with
  | nil => simp [replaceNA_nil] at h
  | cons y r =>
    rw [replaceNA_cons] at h
    by_cases hm : matchHere false (y :: r) = true
    · rw [if_pos hm] at h
      obtain ⟨r2, hr2, hb⟩ := (matchHere_false_iff _).1 hm
      simp only [List.cons.injEq] at hr2
      obtain ⟨-, rfl⟩ := hr2
      simp only [List.drop] at h
      cases r2 with
      | nil => simp [replaceNA_nil] at h
      | cons z r3 =>
        rw [replaceNA_true_cons] at h
        simp only [List.cons.injEq] at h
        simp only [boundaryAfter, Bool.not_eq_true'] at hb
        rw [h.1, hx] at hb
        exact absurd hb (by simp)
    · rw [if_neg hm] at h
      simp only [List.cons.injEq] at h
      obtain ⟨rfl, rfl⟩ := h
      exact ⟨r, rfl, by rw [hx]⟩

theorem hasOcc_cons (pw : Bool) (c : Char) (rest : Str) :
    hasOcc pw (c :: rest) = (matchHere pw (c :: rest) || hasOcc (isWordChar c) rest) := by
  simp [hasOcc]

theorem hasOcc_replaceNA_aux (n : Nat) :
    ∀ (l : Str) (pw : Bool), l.length ≤ n → hasOcc pw (replaceNA pw l) = false := by
  induction n with
  | zero =>
    intro l pw hl
    have : l = [] := List.length_eq_zero.1 (Nat.le_zero.1 hl)
    subst this
    simp [replaceNA_nil, hasOcc]
  | succ n ih =>
    intro l pw hl
    cases l with
    | nil => simp [replaceNA_nil, hasOcc]
    | cons c rest =>
      have hrest : rest.length ≤ n := by simpa using hl
      rw [replaceNA_cons]
      by_cases hm : matchHere pw (c :: rest) = true
      · rw [if_pos hm]
        have hpw : pw = false := by
          cases pw
          · rfl
          · simp [matchHere_true] at hm
        subst hpw
        obtain ⟨r2, hr2, hb⟩ := (matchHere_false_iff _).1 hm
        simp only [List.cons.injEq] at hr2
        obtain ⟨-, rfl⟩ := hr2
        simp only [List.drop]
        have h1 : hasOcc true (replaceNA true r2) = false :=
          ih r2 true (by simp at hrest; omega)
        cases r2 with
        | nil => simp [replaceNA_nil, hasOcc]
        | cons z r3 =>
          rw [replaceNA_true_cons] at h1 ⊢
          rw [hasOcc_cons] at h1 ⊢
          simp only [Bool.or_eq_false_iff] at h1 ⊢
          refine ⟨?_, h1.2⟩
          cases hmz : matchHere false (z :: replaceNA (isWordChar z) r3) with
          | false => rfl
          | true =>
            obtain ⟨r4, hr4, -⟩ := (matchHere_false_iff _).1 hmz
            simp only [List.cons.injEq] at hr4
            simp only [boundaryAfter, Bool.not_eq_true'] at hb
            rw [hr4.1, isWordChar_N] at hb
            exact absurd hb (by simp)
      · rw [if_neg hm, hasOcc_cons]
        simp only [Bool.or_eq_false_iff]
        refine ⟨?_, ih rest _ hrest⟩
        cases hmz : matchHere pw (c :: replaceNA (isWordChar c) rest) with
        | false => rfl
        | true =>
          exfalso
          apply hm
          have hpw : pw = false := by
            cases pw
            · rfl
            · simp [matchHere_true] at hmz
          subst hpw
          obtain ⟨o, ho, hb⟩ := (matchHere_false_iff _).1 hmz
          simp only [List.cons.injEq] at ho
          obtain ⟨rfl, ho⟩ := ho
          rw [isWordChar_N] at ho
          cases rest with
          | nil => simp [replaceNA_nil] at ho
          | cons y r2 =>
            rw [replaceNA_true_cons] at ho
            simp only [List.cons.injEq] at ho
            obtain ⟨rfl, ho⟩ := ho
            rw [isWordChar_slash] at ho
            obtain ⟨r3, rfl, rfl⟩ := replaceNA_false_head_word isWordChar_A ho
            rw [boundaryAfter_replaceNA_true] at hb
            exact (matchHere_false_iff _).2 ⟨r3, rfl, hb⟩

/-- The output of the scan holds no match of the regular expression. -/
theorem hasOcc_replaceNA (pw : Bool) (l : Str) : hasOcc pw (replaceNA pw l) = false :=
  hasOcc_replaceNA_aux l.length l pw (Nat.le_refl _)

theorem boundaryAfter_eq_nonWordAt (l : Str) : boundaryAfter l = nonWordAt l 0 := by
  cases l <;> simp [boundaryAfter, nonWordAt]

theorem nonWordAt_drop (t : Str) (i k : Nat) : nonWordAt (t.drop i) k = nonWordAt t (i + k) := by
  simp [nonWordAt, List.getElem?_drop]

/-- An occurrence at index `i`, read off the suffix of `t` that starts at `i`. -/
theorem occAt_eq_drop (t : Str) (i : Nat) :
    occAt t i =
      ((i == 0 || nonWordAt t (i - 1)) && ((t.drop i).take 3 == ['N', '/', 'A']) &&
        boundaryAfter (t.drop (i + 3))) := by
  have h0 : t[i]? = (t.drop i)[0]? := by simp [List.getElem?_drop]
  have h1 : t[i + 1]? = (t.drop i)[1]? := by simp [List.getElem?_drop]
  have h2 : t[i + 2]? = (t.drop i)[2]? := by simp [List.getElem?_drop]
  have h3 : boundaryAfter (t.drop (i + 3)) = nonWordAt t (i + 3) := by
    rw [boundaryAfter_eq_nonWordAt, nonWordAt_drop]
  rw [occAt, h0, h1, h2, h3]
  rcases t.drop i with _ | ⟨c, _ | ⟨d, _ | ⟨e, r⟩⟩⟩
  · simp
  · simp
  · simp
  · simp only [List.getElem?_cons_zero, List.getElem?_cons_succ, List.take]
    cases hN : (some c == some 'N') <;> cases hS : (some d == some '/') <;>
      cases hA : (some e == some 'A') <;> simp_all

theorem lastWord_nil : lastWord [] = false := rfl

theorem lastWord_concat (pre : Str) (c : Char) : lastWord (pre ++ [c]) = isWordChar c := by
  simp [lastWord]

theorem boundaryBefore_append (pre suf : Str) :
    (pre.length == 0 || nonWordAt (pre ++ suf) (pre.length - 1)) = !lastWord pre := by
  rcases List.eq_nil_or_concat pre with rfl | ⟨init, x, rfl⟩
  · simp [lastWord_nil]
  · have h1 : (init ++ [x] ++ suf)[init.length]? = some x := by
      rw [List.append_assoc, List.getElem?_append_right (Nat.le_refl _)]
      simp
    have hl : (init ++ [x]).length - 1 = init.length := by simp
    rw [List.concat_eq_append, hl, lastWord_concat, nonWordAt, h1]
    simp

/-- An occurrence at the cut of `pre ++ suf` is a match of the regular expression at
the head of `suf`. -/
theorem occAt_append (pre suf : Str) :
    occAt (pre ++ suf) pre.length = matchHere (lastWord pre) suf := by
  rw [occAt_eq_drop, boundaryBefore_append, List.drop_left, List.drop_append, matchHere]

theorem occAt_of_length_le (t : Str) (i : Nat) (h : t.length ≤ i) : occAt t i = false := by
  have : t[i]? = none := List.getElem?_eq_none h
  simp [occAt, this]

theorem matchHere_nil (pw : Bool) : matchHere pw [] = false := by
  simp [matchHere]

/-- An occurrence anywhere in the suffix shows up in `hasOcc`. -/
theorem hasOcc_of_occAt (k : Nat) :
    ∀ (pre suf : Str), occAt (pre ++ suf) (pre.length + k) = true →
      hasOcc (lastWord pre) suf = true := by
  induction k with
  | zero =>
    intro pre suf h
    rw [Nat.add_zero, occAt_append] at h
    cases suf with
    | nil => simp [matchHere_nil] at h
    | cons c rest => simp [hasOcc_cons, h]
  | succ k ih =>
    intro pre suf h
    cases suf with
    | nil =>
      rw [occAt_of_length_le _ _ (by simp)] at h
      exact absurd h (by simp)
    | cons c rest =>
      have e1 : pre ++ c :: rest = (pre ++ [c]) ++ rest := by simp
      have e2 : pre.length + (k + 1) = (pre ++ [c]).length + k := by simp; omega
      rw [e1, e2] at h
      have := ih _ _ h
      rw [lastWord_concat] at this
      simp [hasOcc_cons, this]

/-- A text without a match of the regular expression has no whole-word occurrence. -/
theorem occAt_eq_false_of_hasOcc {t : Str} (h : hasOcc false t = false) (i : Nat) :
    occAt t i = false := by
  cases hi : occAt t i with
  | false => rfl
  | true =>
    have := hasOcc_of_occAt i [] t (by simpa using hi)
    rw [lastWord_nil, h] at this
    exact absurd this (by simp)

/-! ### Trimming keeps a text free of matches -/

theorem hasOcc_dropWhile {l : Str} (h : hasOcc false l = false) :
    hasOcc false (l.dropWhile isWhiteSpace) = false := by
  induction l with
  | nil => simp [hasOcc]
  | cons c rest ih =>
    rw [List.dropWhile_cons]
    by_cases hc : isWhiteSpace c = true
    · rw [if_pos hc]
      apply ih
      rw [hasOcc_cons, isWordChar_of_isWhiteSpace hc] at h
      simp only [Bool.or_eq_false_iff] at h
      exact h.2
    · rw [if_neg hc]
      exact h

theorem boundaryAfter_append {r : Str} {c : Char} (hc : isWordChar c = false)
    (h : boundaryAfter r = true) : boundaryAfter (r ++ [c]) = true := by
  cases r with
  | nil => simp [boundaryAfter, hc]
  | cons z r => simpa [boundaryAfter] using h

theorem matchHere_append {pw : Bool} {l : Str} {c : Char} (hc : isWordChar c = false)
    (h : matchHere pw l = true) : matchHere pw (l ++ [c]) = true := by
  cases pw with
  | true => simp [matchHere_true] at h
  | false =>
    obtain ⟨r, rfl, hb⟩ := (matchHere_false_iff _).1 h
    exact (matchHere_false_iff _).2 ⟨r ++ [c], by simp, boundaryAfter_append hc hb⟩

theorem hasOcc_append {c : Char} (hc : isWordChar c = false) (l : Str) :
    ∀ pw, hasOcc pw l = true → hasOcc pw (l ++ [c]) = true := by
  induction l with
  | nil => intro pw h; simp [hasOcc] at h
  | cons x rest ih =>
    intro pw h
    rw [List.cons_append, hasOcc_cons]
    rw [hasOcc_cons] at h
    simp only [Bool.or_eq_true] at h ⊢
    rcases h with h | h
    · left
      have := matchHere_append hc h
      simpa using this
    · right
      exact ih _ h

theorem trimEnd_eq (s : Str) : trimEnd s = s.rdropWhile isWhiteSpace := rfl

theorem hasOcc_trimEnd (pw : Bool) (l : Str) (h : hasOcc pw l = false) :
    hasOcc pw (trimEnd l) = false := by
  rw [trimEnd_eq]
  induction l using List.reverseRecOn with
  | nil => simpa using h
  | append_singleton init c ih =>
    rw [List.rdropWhile_concat]
    by_cases hc : isWhiteSpace c = true
    · rw [if_pos hc]
      apply ih
      cases hi : hasOcc pw init with
      | false => rfl
      | true =>
        rw [hasOcc_append (isWordChar_of_isWhiteSpace hc) init pw hi] at h
        exact absurd h (by simp)
    · rw [if_neg hc]
      exact h

/-- The output of `filterText` holds no match of the regular expression. -/
theorem hasOcc_filterText (t : Str) : hasOcc false (filterText t) = false :=
  hasOcc_trimEnd _ _ (hasOcc_dropWhile (hasOcc_replaceNA false t))

/-- On a text without a match the scan copies its input. -/
theorem replaceNA_eq_self (l : Str) : ∀ pw, hasOcc pw l = false → replaceNA pw l = l := by
  induction l with
  | nil => intro pw _; exact replaceNA_nil pw
  | cons c rest ih =>
    intro pw h
    rw [hasOcc_cons] at h
    simp only [Bool.or_eq_false_iff] at h
    rw [replaceNA_cons, h.1]
    simp [ih _ h.2]

theorem trimStart_trim (s : Str) : trimStart (trim s) = trim s := by
  unfold trim trimStart
  rw [trimEnd_eq]
  have hpre : (s.dropWhile isWhiteSpace).rdropWhile isWhiteSpace <+: s.dropWhile isWhiteSpace :=
    List.rdropWhile_prefix _ _
  have hhead := List.head?_dropWhile_not isWhiteSpace s
  generalize s.dropWhile isWhiteSpace = y at hpre hhead
  generalize y.rdropWhile isWhiteSpace = x at hpre
  obtain ⟨z, rfl⟩ := hpre
  cases x with
  | nil => rfl
  | cons c x =>
    simp only [List.cons_append, List.head?_cons] at hhead
    rw [List.dropWhile_cons, if_neg (by simp [hhead])]

theorem trim_trim (s : Str) : trim (trim s) = trim s := by
  have h : trim (trim s) = trimEnd (trimStart (trim s)) := rfl
  rw [h, trimStart_trim]
  unfold trim
  rw [trimEnd_eq, trimEnd_eq, List.rdropWhile_idempotent]

theorem filterText_filterText (t : Str) : filterText (filterText t) = filterText t := by
  have h : filterText (filterText t) = trim (replaceNA false (filterText t)) := rfl
  rw [h, replaceNA_eq_self _ _ (hasOcc_filterText t)]
  exact trim_trim _

/-! ### The scan deletes exactly the whole-word occurrences -/

theorem head_of_matchHere {pw : Bool} {x : Char} {l : Str}
    (h : matchHere pw (x :: l) = true) : x = 'N' := by
  cases pw with
  | true => simp [matchHere_true] at h
  | false =>
    obtain ⟨r, hr, -⟩ := (matchHere_false_iff _).1 h
    simp only [List.cons.injEq] at hr
    exact hr.1

theorem scan_eq_filter (n : Nat) :
    ∀ (suf pre t : Str), suf.length ≤ n → t = pre ++ suf →
      (∀ j, j < pre.length → pre.length ≤ j + 2 → occAt t j = false) →
      replaceNA (lastWord pre) suf =
        ((suf.enumFrom pre.length).filter (fun p => !covered t p.1)).map Prod.snd := by
  induction n with
  | zero =>
    intro suf pre t hl _ _
    have : suf = [] := List.length_eq_zero.1 (Nat.le_zero.1 hl)
    subst this
    simp [replaceNA_nil]
  | succ n ih =>
    intro suf pre t hl ht inv
    cases suf with
    | nil => simp [replaceNA_nil]
    | cons c rest =>
      have hrest : rest.length ≤ n := by simpa using hl
      have hocc : occAt t pre.length = matchHere (lastWord pre) (c :: rest) := by
        rw [ht, occAt_append]
      rw [replaceNA_cons]
      by_cases hm : matchHere (lastWord pre) (c :: rest) = true
      · rw [if_pos hm]
        have hlw : lastWord pre = false := by
          cases h : lastWord pre with
          | false => rfl
          | true => rw [h, matchHere_true] at hm; exact absurd hm (by simp)
        rw [hlw] at hm
        obtain ⟨r2, hr2, hb⟩ := (matchHere_false_iff _).1 hm
        simp only [List.cons.injEq] at hr2
        obtain ⟨rfl, rfl⟩ := hr2
        have hcur : occAt t pre.length = true := by rw [hocc, hlw, hm]
        have c0 : covered t pre.length = true := by simp [covered, hcur]
        have c1 : covered t (pre.length + 1) = true := by simp [covered, hcur]
        have c2 : covered t (pre.length + 2) = true := by simp [covered, hcur]
        have ht2 : t = (pre ++ ['N', '/', 'A']) ++ r2 := by rw [ht]; simp
        have key := ih r2 (pre ++ ['N', '/', 'A']) t (by simp at hrest; omega) ht2 (by
          intro j hj1 hj2
          simp only [List.length_append, List.length_cons, List.length_nil] at hj1 hj2
          have hj : j = pre.length + 1 ∨ j = pre.length + 2 := by omega
          cases hocc2 : occAt t j with
          | false => rfl
          | true =>
            exfalso
            rcases hj with rfl | rfl
            · have e : t = (pre ++ ['N']) ++ ('/' :: 'A' :: r2) := by rw [ht]; simp
              have e2 : pre.length + 1 = (pre ++ ['N']).length := by simp
              rw [e, e2, occAt_append] at hocc2
              exact absurd (head_of_matchHere hocc2) (by decide)
            · have e : t = (pre ++ ['N', '/']) ++ ('A' :: r2) := by rw [ht]; simp
              have e2 : pre.length + 2 = (pre ++ ['N', '/']).length := by simp
              rw [e, e2, occAt_append] at hocc2
              exact absurd (head_of_matchHere hocc2) (by decide))
        have hw : lastWord (pre ++ ['N', '/', 'A']) = true := by
          have : pre ++ ['N', '/', 'A'] = (pre ++ ['N', '/']) ++ ['A'] := by simp
          rw [this, lastWord_concat, isWordChar_A]
        have hlen : (pre ++ ['N', '/', 'A']).length = pre.length + 3 := by simp
        rw [hw, hlen] at key
        simp only [List.drop, List.enumFrom_cons, List.filter_cons, c0, c1, c2,
          Bool.not_true, Bool.false_eq_true, if_false]
        exact key
      · rw [if_neg hm]
        have hcur : occAt t pre.length = false := by
          rw [hocc]; simpa using hm
        have p1 : (decide (1 ≤ pre.length) && occAt t (pre.length - 1)) = false := by
          by_cases h1 : 1 ≤ pre.length
          · rw [inv (pre.length - 1) (by omega) (by omega)]; simp
          · simp [h1]
        have p2 : (decide (2 ≤ pre.length) && occAt t (pre.length - 2)) = false := by
          by_cases h2 : 2 ≤ pre.length
          · rw [inv (pre.length - 2) (by omega) (by omega)]; simp
          · simp [h2]
        have c0 : covered t pre.length = false := by
          simp only [covered, hcur, p1, p2, Bool.or_self]
        have ht2 : t = (pre ++ [c]) ++ rest := by rw [ht]; simp
        have key := ih rest (pre ++ [c]) t hrest ht2 (by
          intro j hj1 hj2
          simp only [List.length_append, List.length_cons, List.length_nil] at hj1 hj2
          by_cases hj : j = pre.length
          · rw [hj]; exact hcur
          · exact inv j (by omega) (by omega))
        rw [lastWord_concat] at key
        have hlen : (pre ++ [c]).length = pre.length + 1 := by simp
        rw [hlen] at key
        simp only [List.enumFrom_cons, List.filter_cons, c0, Bool.not_false, if_true,
          List.map_cons]
        rw [key]

/-- The scan of the regular expression deletes exactly the whole-word occurrences. -/
theorem replaceNA_eq_delete (t : Str) : replaceNA false t = deleteWholeWordNA t := by
  have := scan_eq_filter t.length t [] t (Nat.le_refl _) (by simp) (by simp)
  simpa [deleteWholeWordNA, List.enum, lastWord_nil] using this

theorem deleteWholeWordNA_eq_self {t : Str} (h : ∀ i, occAt t i = false) :
    deleteWholeWordNA t = t := by
  have hc : ∀ j, covered t j = false := by
    intro j
    simp [covered, h]
  simp [deleteWholeWordNA, hc]

/-! ### Playback controller -/

theorem toggleSpeak_idle (s : State) (text : Str) (button : ElemId)
    (h : s.currentUtterance = none) :
    toggleSpeak text button s =
      { s with
        currentUtterance := some ⟨text, s.selectedVoice, some button⟩
        spoken := s.spoken ++ [⟨text, s.selectedVoice, some button⟩]
        label := Function.update s.label button "Stop Description".toList } := by
  unfold toggleSpeak
  rw [h]
  cases hv : s.selectedVoice <;> simp

theorem toggleSpeak_speaking (s : State) (text : Str) (button : ElemId) (u : Utterance)
    (h : s.currentUtterance = some u) :
    toggleSpeak text button s =
      { s with
        spoken := []
        currentUtterance := none
        label := Function.update s.label button "Play Description".toList } := by
  unfold toggleSpeak
  rw [h]
  simp

theorem fireEnd_some (u : Utterance) (button : ElemId) (s : State) (h : u.onend = some button) :
    fireEnd u s =
      { s with
        currentUtterance := none
        label := Function.update s.label button "Play Description".toList } := by
  unfold fireEnd
  rw [h]

theorem fireEnd_idle (u : Utterance) (button : ElemId) (s : State) (h : u.onend = some button)
    (hc : s.currentUtterance = none) (hl : s.label button = "Play Description".toList) :
    fireEnd u s = s := by
  rw [fireEnd_some u button s h]
  cases s with
  | mk cu sv label spoken =>
    simp only at hc hl
    subst hc
    simp only [State.mk.injEq, true_and, and_true]
    rw [← hl]
    exact Function.update_eq_self button label

/-- C6: from Idle, `toggleSpeak` moves to Speaking with a task built from the text
and the selected voice and labels the button `Stop Description`; a second
`toggleSpeak` cancels, moves back to Idle and labels the button `Play Description`;
the completion callback of the cancelled task, arriving then, leaves the state as it
is: Idle, label `Play Description`. -/
theorem toggleSpeak_cycle (s : State) (text text2 : Str) (button : ElemId)
    (h : s.currentUtterance = none) :
    (toggleSpeak text button s).currentUtterance = some ⟨text, s.selectedVoice, some button⟩ ∧
    (toggleSpeak text button s).spoken = s.spoken ++ [⟨text, s.selectedVoice, some button⟩] ∧
    (toggleSpeak text button s).label button = "Stop Description".toList ∧
    (toggleSpeak text2 button (toggleSpeak text button s)).currentUtterance = none ∧
    (toggleSpeak text2 button (toggleSpeak text button s)).spoken = [] ∧
    (toggleSpeak text2 button (toggleSpeak text button s)).label button
      = "Play Description".toList ∧
    fireEnd ⟨text, s.selectedVoice, some button⟩
        (toggleSpeak text2 button (toggleSpeak text button s))
      = toggleSpeak text2 button (toggleSpeak text button s) ∧
    (fireEnd ⟨text, s.selectedVoice, some button⟩
        (toggleSpeak text2 button (toggleSpeak text button s))).currentUtterance = none ∧
    (fireEnd ⟨text, s.selectedVoice, some button⟩
        (toggleSpeak text2 button (toggleSpeak text button s))).label button
      = "Play Description".toList := by
  have h1 := toggleSpeak_idle s text button h
  have hcu : (toggleSpeak text button s).currentUtterance
      = some ⟨text, s.selectedVoice, some button⟩ := by rw [h1]
  have h2 := toggleSpeak_speaking (toggleSpeak text button s) text2 button _ hcu
  have hc2 : (toggleSpeak text2 button (toggleSpeak text button s)).currentUtterance = none := by
    rw [h2]
  have hl2 : (toggleSpeak text2 button (toggleSpeak text button s)).label button
      = "Play Description".toList := by
    rw [h2]; simp
  have h3 := fireEnd_idle ⟨text, s.selectedVoice, some button⟩ button _ rfl hc2 hl2
  refine ⟨hcu, by rw [h1], by rw [h1]; simp, hc2, by rw [h2], hl2, h3, ?_, ?_⟩
  · rw [h3]; exact hc2
  · rw [h3]; exact hl2

/-- The cycle of C6 on the page button, started from the freshly loaded script. -/
theorem toggleSpeak_cycle_witness :
    (State.init (fun _ => "Play Description".toList)).currentUtterance = none ∧
    (toggleSpeak "hello".toList "playDescription".toList
        (State.init (fun _ => "Play Description".toList))).label "playDescription".toList
      = "Stop Description".toList :=
  ⟨rfl, (toggleSpeak_cycle (State.init (fun _ => "Play Description".toList)) "hello".toList
    "again".toList "playDescription".toList rfl).2.2.1⟩

/-- C7, counterexample: after start, cancel, start, the controller is Speaking the
second task with label `Stop Description`; the completion callback of the first,
cancelled task then clears `currentUtterance` and resets the label. -/
theorem stale_completion_resets_newer_task :
    (run (State.init (fun _ => "Play Description".toList))
        [Event.toggle "first".toList playDescription]).currentUtterance = some cancelledTask ∧
    (run (State.init (fun _ => "Play Description".toList))
        [Event.toggle "first".toList playDescription,
         Event.toggle "first".toList playDescription]).currentUtterance = none ∧
    rapidClicks.currentUtterance = some ⟨"second".toList, none, some playDescription⟩ ∧
    rapidClicks.label playDescription = "Stop Description".toList ∧
    (fireEnd cancelledTask rapidClicks).currentUtterance = none ∧
    (fireEnd cancelledTask rapidClicks).label playDescription = "Play Description".toList ∧
    fireEnd cancelledTask rapidClicks ≠ rapidClicks := by
  refine ⟨rfl, rfl, rfl, by decide, rfl, by decide, ?_⟩
  intro h
  have h2 : (fireEnd cancelledTask rapidClicks).currentUtterance = rapidClicks.currentUtterance :=
    by rw [h]
  exact absurd h2 (by decide)

theorem label_after_step (b : ElemId) (s : State) (e : Event) (he : Event.onButton b e)
    (hc : (step s e).currentUtterance = none) :
    (step s e).label b = "Play Description".toList := by
  cases e with
  | toggle text button =>
    simp only [Event.onButton] at he
    subst he
    simp only [step] at hc ⊢
    cases hcu : s.currentUtterance with
    | none =>
      rw [toggleSpeak_idle s text button hcu] at hc
      simp at hc
    | some u =>
      rw [toggleSpeak_speaking s text button u hcu]
      simp
  | ended u =>
    simp only [Event.onButton] at he
    simp only [step]
    rw [fireEnd_some u b s he]
    simp

/-- C7, amended: after any non-empty sequence of toggle and completion events on the
button, a completion callback always leaves the controller Idle with label
`Play Description`; it leaves state and label unchanged exactly in the case where the
controller is Idle when it fires. -/
theorem completion_callback_effect (b : ElemId) (s0 : State) (evs : List Event)
    (hne : evs ≠ []) (hev : ∀ e ∈ evs, Event.onButton b e) (u : Utterance)
    (hu : u.onend = some b) :
    ((run s0 evs).currentUtterance = none → fireEnd u (run s0 evs) = run s0 evs) ∧
    ((run s0 evs).currentUtterance ≠ none → fireEnd u (run s0 evs) ≠ run s0 evs) ∧
    (fireEnd u (run s0 evs)).currentUtterance = none ∧
    (fireEnd u (run s0 evs)).label b = "Play Description".toList := by
  refine ⟨?_, ?_, ?_, ?_⟩
  · intro hc
    rcases List.eq_nil_or_concat evs with rfl | ⟨init, e, rfl⟩
    · exact absurd rfl hne
    · have he : Event.onButton b e := hev e (by simp)
      have hrun : run s0 (init.concat e) = step (run s0 init) e := by
        simp [run, List.foldl_append]
      rw [hrun] at hc ⊢
      exact fireEnd_idle u b _ hu hc (label_after_step b _ e he hc)
  · intro hc h
    apply hc
    rw [← h, fireEnd_some u b _ hu]
  · rw [fireEnd_some u b _ hu]
  · rw [fireEnd_some u b _ hu]
    simp

/-- The amended C7 at the three rapid clicks. -/
theorem completion_callback_effect_witness :
    (fireEnd cancelledTask rapidClicks).currentUtterance = none ∧
    (fireEnd cancelledTask rapidClicks).label playDescription = "Play Description".toList :=
  (completion_callback_effect playDescription (State.init (fun _ => "Play Description".toList))
    [Event.toggle "first".toList playDescription,
     Event.toggle "first".toList playDescription,
     Event.toggle "second".toList playDescription]
    (by simp) (by simp [Event.onButton]) cancelledTask rfl).2.2

/-! ### Voice selector -/

theorem find?_first {α : Type} (p : α → Bool) (pre : List α) (v : α) (post : List α)
    (hpre : ∀ w ∈ pre, p w = false) (hv : p v = true) :
    (pre ++ v :: post).find? p = some v := by
  induction pre with
  | nil => simp [hv]
  | cons a pre ih =>
    have ha : p a = false := hpre a (by simp)
    rw [List.cons_append, List.find?_cons, ha]
    exact ih (fun w hw => hpre w (by simp [hw]))

theorem isPrefixOf_eq_false {a b : Str} (h : ¬ a <+: b) : a.isPrefixOf b = false := by
  cases hp : a.isPrefixOf b with
  | false => rfl
  | true => exact absurd (List.isPrefixOf_iff_prefix.1 hp) h

/-- C8: the selection after a voice-availability notification is a function of the
delivered list alone: the first voice with language tag `en-KE` if there is one,
otherwise the first voice whose tag starts with `en` if there is one, otherwise
empty. -/
theorem voice_selection (voices : List Voice) (s : State) :
    (∀ s2 : State,
      (onvoiceschanged voices s).selectedVoice = (onvoiceschanged voices s2).selectedVoice) ∧
    (∀ pre v post, voices = pre ++ v :: post →
      (∀ w ∈ pre, w.lang ≠ "en-KE".toList) → v.lang = "en-KE".toList →
      (onvoiceschanged voices s).selectedVoice = some v) ∧
    (∀ pre v post, voices = pre ++ v :: post →
      (∀ w ∈ voices, w.lang ≠ "en-KE".toList) →
      (∀ w ∈ pre, ¬ "en".toList <+: w.lang) → "en".toList <+: v.lang →
      (onvoiceschanged voices s).selectedVoice = some v) ∧
    ((∀ w ∈ voices, w.lang ≠ "en-KE".toList ∧ ¬ "en".toList <+: w.lang) →
      (onvoiceschanged voices s).selectedVoice = none) := by
  refine ⟨fun s2 => rfl, ?_, ?_, ?_⟩
  · intro pre v post hv hpre hlang
    have h := find?_first (fun voice : Voice => voice.lang == "en-KE".toList) pre v post
      (fun w hw => by simpa using hpre w hw) (by simpa using hlang)
    simp only [onvoiceschanged]
    rw [hv, h]
    simp
  · intro pre v post hv hall hpre hlang
    have hnone : voices.find? (fun voice : Voice => voice.lang == "en-KE".toList) = none := by
      rw [List.find?_eq_none]
      intro w hw
      simpa using hall w hw
    have h := find?_first (fun voice : Voice => "en".toList.isPrefixOf voice.lang) pre v post
      (fun w hw => isPrefixOf_eq_false (hpre w hw))
      (by rw [List.isPrefixOf_iff_prefix]; exact hlang)
    simp only [onvoiceschanged]
    rw [hnone, ← hv] at *
    simp only [Option.isNone_none, if_true]
    rw [hv, h]
  · intro hall
    have hnone : voices.find? (fun voice : Voice => voice.lang == "en-KE".toList) = none := by
      rw [List.find?_eq_none]
      intro w hw
      simpa using (hall w hw).1
    have hnone2 : voices.find? (fun voice : Voice => "en".toList.isPrefixOf voice.lang) = none := by
      rw [List.find?_eq_none]
      intro w hw
      rw [isPrefixOf_eq_false (hall w hw).2]
      simp
    simp only [onvoiceschanged]
    rw [hnone, hnone2]
    simp

/-- C8 on a list with no exact match and one prefix match. -/
theorem voice_selection_witness :
    (onvoiceschanged
        [⟨"Amelie".toList, "fr-FR".toList⟩, ⟨"Daniel".toList, "en-GB".toList⟩,
         ⟨"Samantha".toList, "en-US".toList⟩]
        (State.init (fun _ => []))).selectedVoice
      = some ⟨"Daniel".toList, "en-GB".toList⟩ :=
  (voice_selection
      [⟨"Amelie".toList, "fr-FR".toList⟩, ⟨"Daniel".toList, "en-GB".toList⟩,
       ⟨"Samantha".toList, "en-US".toList⟩]
      (State.init (fun _ => []))).2.2.1
    [⟨"Amelie".toList, "fr-FR".toList⟩] ⟨"Daniel".toList, "en-GB".toList⟩
    [⟨"Samantha".toList, "en-US".toList⟩] rfl (by decide) (by decide) (by decide)

/-! ### The placeholder filter: the claims -/

/-- C2: `filterText(t)` is `t` with every whole-word occurrence of `N/A` deleted and
the result trimmed; a text with no whole-word occurrence is returned unchanged up to
trimming, as are `UNAVAILABLE`, `XN/A` and `N/Available`; and `Value N/A and more`
gives `Value  and more`. -/
theorem filterText_spec (t : Str) :
    filterText t = trim (deleteWholeWordNA t) ∧
    ((∀ i, occAt t i = false) → filterText t = trim t) ∧
    ((∀ i, occAt "UNAVAILABLE".toList i = false) ∧
      filterText "UNAVAILABLE".toList = "UNAVAILABLE".toList) ∧
    ((∀ i, occAt "XN/A".toList i = false) ∧ filterText "XN/A".toList = "XN/A".toList) ∧
    ((∀ i, occAt "N/Available".toList i = false) ∧
      filterText "N/Available".toList = "N/Available".toList) ∧
    filterText "Value N/A and more".toList = "Value  and more".toList := by
  refine ⟨?_, ?_, ⟨?_, by decide⟩, ⟨?_, by decide⟩, ⟨?_, by decide⟩, by decide⟩
  · rw [filterText, replaceNA_eq_delete]
  · intro h
    rw [filterText, replaceNA_eq_delete, deleteWholeWordNA_eq_self h]
  · exact occAt_eq_false_of_hasOcc (by decide)
  · exact occAt_eq_false_of_hasOcc (by decide)
  · exact occAt_eq_false_of_hasOcc (by decide)

/-- C2 at a text whose `N/A` is part of a longer word. -/
theorem filterText_spec_witness :
    (∀ i, occAt "id N/A2 ".toList i = false) ∧
    filterText "id N/A2 ".toList = trim "id N/A2 ".toList :=
  ⟨occAt_eq_false_of_hasOcc (by decide),
   (filterText_spec "id N/A2 ".toList).2.1 (occAt_eq_false_of_hasOcc (by decide))⟩

/-- C3: `filterText(t)` contains no whole-word occurrence of `N/A`, so filtering it
again changes nothing; in particular the narration text handed to `toggleSpeak`
contains no whole-word occurrence of `N/A`. -/
theorem filterText_no_leftover (P : HtmlParser) (r : Record) (t : Str) :
    (∀ i, occAt (filterText t) i = false) ∧
    filterText (filterText t) = filterText t ∧
    (∀ i, occAt (narrationText P r) i = false) :=
  ⟨occAt_eq_false_of_hasOcc (hasOcc_filterText t), filterText_filterText t,
   occAt_eq_false_of_hasOcc (hasOcc_filterText (fullText P r))⟩

/-! ### Field renderer and transcript builder -/

theorem fullText_eq_flatten (P : HtmlParser) (r : Record) :
    fullText P r = (fieldOrder.map (transcriptLine P r)).flatten := by
  simp [fullText, fieldOrder, transcriptLine]

theorem listLine_none {α : Type} (P : HtmlParser) (label : Str) (text : List α → Str) :
    listLine P label none text = [] := rfl

theorem listLine_nil {α : Type} (P : HtmlParser) (label : Str) (text : List α → Str) :
    listLine P label (some []) text = [] := by
  simp [listLine]

theorem listLine_some {α : Type} (P : HtmlParser) (label : Str) (text : List α → Str)
    (l : List α) (h : l ≠ []) :
    listLine P label (some l) text
      = label ++ ": ".toList ++ sanitize P (text l) ++ "\x7d\n".toList := by
  have : 0 < l.length := List.length_pos.2 h
  simp [listLine, this]

theorem renderList_none (sep : Str) (el : Element) :
    (renderList sep none el).display = "none".toList := rfl

/-- C5: when one of the hide-when-absent fields is absent from the record, its
display target is hidden (`display` is `none`) and the transcript has no line for
it: the field contributes the empty text and the transcript equals the one built
with that field skipped.  An absent image hides the image target. -/
theorem absent_field_hidden_and_omitted (P : HtmlParser) (r : Record) (p : Page) :
    (r.chronologicalHistory = none →
      (render r p).chronologicalHistory.display = "none".toList ∧
      transcriptLine P r Field.chronologicalHistory = [] ∧
      fullText P r = fullTextSkipping Field.chronologicalHistory P r) ∧
    (r.spaceTimeAnomalies = none →
      (render r p).spaceTimeAnomalies.display = "none".toList ∧
      transcriptLine P r Field.spaceTimeAnomalies = [] ∧
      fullText P r = fullTextSkipping Field.spaceTimeAnomalies P r) ∧
    (r.additionalNotes = none →
      (render r p).additionalNotes.display = "none".toList ∧
      transcriptLine P r Field.additionalNotes = [] ∧
      fullText P r = fullTextSkipping Field.additionalNotes P r) ∧
    (r.appendix = none →
      (render r p).appendix.display = "none".toList ∧
      transcriptLine P r Field.appendix = [] ∧
      fullText P r = fullTextSkipping Field.appendix P r) ∧
    (r.addendum = none →
      (render r p).addendum.display = "none".toList ∧
      transcriptLine P r Field.addendum = [] ∧
      fullText P r = fullTextSkipping Field.addendum P r) ∧
    (r.reference = none →
      (render r p).reference.display = "none".toList ∧
      transcriptLine P r Field.reference = [] ∧
      fullText P r = fullTextSkipping Field.reference P r) ∧
    (r.image = none → (render r p).scpImage.display = "none".toList) := by
  refine ⟨?_, ?_, ?_, ?_, ?_, ?_, ?_⟩
  · intro h
    have hl : transcriptLine P r Field.chronologicalHistory = [] := by
      simp [transcriptLine, h, listLine_none]
    refine ⟨by simp [render, h, renderList_none], hl, ?_⟩
    rw [fullText_eq_flatten]
    simp [fullTextSkipping, fieldOrder, hl]
  · intro h
    have hl : transcriptLine P r Field.spaceTimeAnomalies = [] := by
      simp [transcriptLine, h, listLine_none]
    refine ⟨by simp [render, h, renderList_none], hl, ?_⟩
    rw [fullText_eq_flatten]
    simp [fullTextSkipping, fieldOrder, hl]
  · intro h
    have hl : transcriptLine P r Field.additionalNotes = [] := by
      simp [transcriptLine, h, listLine_none]
    refine ⟨by simp [render, h, renderList_none], hl, ?_⟩
    rw [fullText_eq_flatten]
    simp [fullTextSkipping, fieldOrder, hl]
  · intro h
    have hl : transcriptLine P r Field.appendix = [] := by
      simp [transcriptLine, h, listLine_none]
    refine ⟨by simp [render, h], hl, ?_⟩
    rw [fullText_eq_flatten]
    simp [fullTextSkipping, fieldOrder, hl]
  · intro h
    have hl : transcriptLine P r Field.addendum = [] := by
      simp [transcriptLine, h, listLine_none]
    refine ⟨by simp [render, h], hl, ?_⟩
    rw [fullText_eq_flatten]
    simp [fullTextSkipping, fieldOrder, hl]
  · intro h
    have hl : transcriptLine P r Field.reference = [] := by
      simp [transcriptLine, h, listLine_none]
    refine ⟨by simp [render, h, renderList_none], hl, ?_⟩
    rw [fullText_eq_flatten]
    simp [fullTextSkipping, fieldOrder, hl]
  · intro h
    simp [render, h, truthyStr]

/-- C5 at a record that has a description only. -/
theorem absent_field_hidden_and_omitted_witness :
    ({ Record.empty with description := some ["text".toList] } : Record).appendix = none ∧
    (render { Record.empty with description := some ["text".toList] } Page.blank).appendix.display
      = "none".toList ∧
    fullText plainParser { Record.empty with description := some ["text".toList] }
      = fullTextSkipping Field.appendix plainParser
          { Record.empty with description := some ["text".toList] } :=
  ⟨rfl,
   ((absent_field_hidden_and_omitted plainParser
      { Record.empty with description := some ["text".toList] } Page.blank).2.2.2.1 rfl).1,
   ((absent_field_hidden_and_omitted plainParser
      { Record.empty with description := some ["text".toList] } Page.blank).2.2.2.1 rfl).2.2⟩

theorem join_cons_cons (sep a b : Str) (rest : List Str) :
    join sep (a :: b :: rest) = a ++ sep ++ join sep (b :: rest) := rfl

theorem appendixEntry_eq_spec (e : Entry) :
    appendixEntry e = entrySpec "<strong>".toList "</strong>".toList e := by
  cases e with
  | mk title content =>
    cases content <;> simp [appendixEntry, entrySpec, contentJoin]

theorem join_appendix_eq_spec (l : List Entry) :
    join "<br><br>".toList (l.map appendixEntry)
      = structuredListSpec "<strong>".toList "</strong>".toList l := by
  induction l with
  | nil => rfl
  | cons e rest ih =>
    cases rest with
    | nil => simp [join, structuredListSpec, appendixEntry_eq_spec]
    | cons e2 rest2 =>
      rw [List.map_cons, List.map_cons, join_cons_cons, ← List.map_cons, ih,
        structuredListSpec, appendixEntry_eq_spec]

/-- C9, counterexample: the example appendix is not rendered with `b` tags. -/
theorem appendix_example_not_b_tags :
    (render { Record.empty with appendix := some exampleEntries } Page.blank).appendix.innerHTML
      ≠ "<b>A</b><br>x<br>y<br><br><b>B</b><br>z".toList ∧
    (render { Record.empty with appendix := some exampleEntries } Page.blank).appendix.innerHTML
      ≠ structuredListSpec "<b>".toList "</b>".toList exampleEntries := by
  constructor <;> decide

/-- C9, amended: a present appendix is written as its entries joined by `<br><br>`,
each entry being `<strong>` + title + `</strong><br>` followed by its content, a
sequence joined by `<br>` and a single string as is; the target is made visible; the
appendix of the example renders as
`<strong>A</strong><br>x<br>y<br><br><strong>B</strong><br>z`. -/
theorem appendix_rendering (r : Record) (p : Page) (l : List Entry)
    (h : r.appendix = some l) :
    (render r p).appendix.innerHTML
      = structuredListSpec "<strong>".toList "</strong>".toList l ∧
    (render r p).appendix.display = "block".toList ∧
    structuredListSpec "<strong>".toList "</strong>".toList exampleEntries
      = "<strong>A</strong><br>x<br>y<br><br><strong>B</strong><br>z".toList := by
  refine ⟨?_, ?_, by decide⟩
  · simp only [render, h]
    exact join_appendix_eq_spec l
  · simp only [render, h]

/-- The amended C9 at the example appendix. -/
theorem appendix_rendering_witness :
    (render { Record.empty with appendix := some exampleEntries } Page.blank).appendix.innerHTML
      = "<strong>A</strong><br>x<br>y<br><br><strong>B</strong><br>z".toList :=
  ((appendix_rendering { Record.empty with appendix := some exampleEntries } Page.blank
      exampleEntries rfl).1).trans
    (appendix_rendering { Record.empty with appendix := some exampleEntries } Page.blank
      exampleEntries rfl).2.2

/-- C10, failing input: the same one-entry list with a two-element content is written
with `<br>` between the elements as appendix and with a comma as addendum. -/
theorem addendum_array_content_comma_joined :
    (render { Record.empty with
        appendix := some [⟨"A".toList, Content.arr ["x".toList, "y".toList]⟩] }
      Page.blank).appendix.innerHTML = "<strong>A</strong><br>x<br>y".toList ∧
    (render { Record.empty with
        addendum := some [⟨"A".toList, Content.arr ["x".toList, "y".toList]⟩] }
      Page.blank).addendum.innerHTML = "<strong>A</strong><br>x,y".toList := by
  constructor <;> decide

/-- C1, failing input: for the path `/a.html5.html` the script removes the first
`.html` of the file name, not the trailing extension. -/
theorem getSCPIdFromURL_removes_inner_match :
    getSCPIdFromURL "/a.html5.html".toList = some "A5.HTML".toList ∧
    resolveSpec "/a.html5.html".toList = some "A.HTML5".toList ∧
    getSCPIdFromURL "/pages/foo-1.html".toList = some "FOO-1".toList := by
  refine ⟨by decide, by decide, by decide⟩

theorem listLine_shape {α : Type} (P : HtmlParser) (label : Str) (text : List α → Str)
    (l : List α) (h : l ≠ []) :
    LineShape (listLine P label (some l) text) label (sanitize P (text l)) := by
  refine ⟨"\x7d".toList, ?_⟩
  rw [listLine_some P label text l h]
  simp

theorem listLine_absent {α : Type} (P : HtmlParser) (label : Str) (text : List α → Str)
    (field : Option (List α)) (h : field = none ∨ field = some []) :
    listLine P label field text = [] := by
  rcases h with rfl | rfl
  · exact listLine_none P label text
  · exact listLine_nil P label text

theorem scalarLine_present (P : HtmlParser) (label s : Str) (h1 : s ≠ [])
    (h2 : s ≠ "N/A".toList) :
    scalarLine P label (some s) = label ++ ": ".toList ++ sanitize P s ++ "\n".toList := by
  simp only [scalarLine]
  rw [if_pos ⟨h1, h2⟩]

theorem scalarLine_absent (P : HtmlParser) (label : Str) (field : Option Str)
    (h : field = none ∨ field = some [] ∨ field = some "N/A".toList) :
    scalarLine P label field = [] := by
  rcases h with rfl | rfl | rfl
  · rfl
  · simp [scalarLine]
  · simp [scalarLine]

theorem appendixText_eq_spec (e : Entry) : appendixText e = entryTextSpec e := by
  cases e with
  | mk title content => cases content <;> rfl

theorem map_addendumText_eq_spec (l : List Entry) (h : allStringContent l) :
    l.map addendumText = l.map entryTextSpec := by
  apply List.map_congr_left
  intro e he
  obtain ⟨s, hs⟩ := h e he
  cases e with
  | mk title content =>
    simp only at hs
    subst hs
    rfl

/-- C4, counterexample: a record whose only field is `item` with the value `N/A` is
present and non-empty, so the claim gives it the line `Item Number: N/A`, but the
handler assembles the empty text; and for a record whose only field is the
description `x` the handler assembles `Description: x` followed by a closing brace
and the newline. -/
theorem transcript_differs_from_spec :
    fullText plainParser { Record.empty with item := some "N/A".toList } = [] ∧
    transcriptSpec plainParser { Record.empty with item := some "N/A".toList }
      = "Item Number: N/A\n".toList ∧
    fullText plainParser { Record.empty with description := some ["x".toList] }
      = "Description: x\x7d\n".toList ∧
    transcriptSpec plainParser { Record.empty with description := some ["x".toList] }
      = "Description: x\n".toList := by
  refine ⟨by decide, by decide, by decide, by decide⟩

/-- C4, amended: the assembled text is the concatenation, in the fixed order, of one
contribution per field.  A field that is absent or empty contributes nothing, and so
does an `item` or `objectClass` equal to `N/A`.  Otherwise `item` and `objectClass`
contribute exactly label, colon, space, sanitized value, newline; each list field
contributes a line that starts with label, colon, space and the sanitized text of the
entries joined by a space, and ends with a newline (for the addendum: when every
entry content is a single string). -/
theorem fullText_lines (P : HtmlParser) (r : Record) :
    fullText P r =
      transcriptLine P r Field.item ++ transcriptLine P r Field.objectClass ++
      transcriptLine P r Field.specialContainmentProcedure ++
      transcriptLine P r Field.description ++ transcriptLine P r Field.chronologicalHistory ++
      transcriptLine P r Field.spaceTimeAnomalies ++ transcriptLine P r Field.additionalNotes ++
      transcriptLine P r Field.appendix ++ transcriptLine P r Field.addendum ++
      transcriptLine P r Field.reference ∧
    ((∀ s, r.item = some s → s ≠ [] → s ≠ "N/A".toList →
        transcriptLine P r Field.item
          = "Item Number".toList ++ ": ".toList ++ sanitize P s ++ "\n".toList) ∧
      (r.item = none ∨ r.item = some [] ∨ r.item = some "N/A".toList →
        transcriptLine P r Field.item = [])) ∧
    ((∀ s, r.objectClass = some s → s ≠ [] → s ≠ "N/A".toList →
        transcriptLine P r Field.objectClass
          = "Object Class".toList ++ ": ".toList ++ sanitize P s ++ "\n".toList) ∧
      (r.objectClass = none ∨ r.objectClass = some [] ∨ r.objectClass = some "N/A".toList →
        transcriptLine P r Field.objectClass = [])) ∧
    ((∀ l, r.specialContainmentProcedure = some l → l ≠ [] →
        LineShape (transcriptLine P r Field.specialContainmentProcedure)
          "Special Containment Procedure".toList (sanitize P (join " ".toList l))) ∧
      (r.specialContainmentProcedure = none ∨ r.specialContainmentProcedure = some [] →
        transcriptLine P r Field.specialContainmentProcedure = [])) ∧
    ((∀ l, r.description = some l → l ≠ [] →
        LineShape (transcriptLine P r Field.description)
          "Description".toList (sanitize P (join " ".toList l))) ∧
      (r.description = none ∨ r.description = some [] →
        transcriptLine P r Field.description = [])) ∧
    ((∀ l, r.chronologicalHistory = some l → l ≠ [] →
        LineShape (transcriptLine P r Field.chronologicalHistory)
          "Chronological History".toList (sanitize P (join " ".toList l))) ∧
      (r.chronologicalHistory = none ∨ r.chronologicalHistory = some [] →
        transcriptLine P r Field.chronologicalHistory = [])) ∧
    ((∀ l, r.spaceTimeAnomalies = some l → l ≠ [] →
        LineShape (transcriptLine P r Field.spaceTimeAnomalies)
          "Space-Time Anomalies".toList (sanitize P (join " ".toList l))) ∧
      (r.spaceTimeAnomalies = none ∨ r.spaceTimeAnomalies = some [] →
        transcriptLine P r Field.spaceTimeAnomalies = [])) ∧
    ((∀ l, r.additionalNotes = some l → l ≠ [] →
        LineShape (transcriptLine P r Field.additionalNotes)
          "Additional Notes".toList (sanitize P (join " ".toList l))) ∧
      (r.additionalNotes = none ∨ r.additionalNotes = some [] →
        transcriptLine P r Field.additionalNotes = [])) ∧
    ((∀ l, r.appendix = some l → l ≠ [] →
        LineShape (transcriptLine P r Field.appendix)
          "Appendix".toList (sanitize P (join " ".toList (l.map entryTextSpec)))) ∧
      (r.appendix = none ∨ r.appendix = some [] →
        transcriptLine P r Field.appendix = [])) ∧
    ((∀ l, r.addendum = some l → l ≠ [] → allStringContent l →
        LineShape (transcriptLine P r Field.addendum)
          "Addendum".toList (sanitize P (join " ".toList (l.map entryTextSpec)))) ∧
      (∀ l, r.addendum = some l → l ≠ [] →
        LineShape (transcriptLine P r Field.addendum) "Addendum".toList []) ∧
      (r.addendum = none ∨ r.addendum = some [] →
        transcriptLine P r Field.addendum = [])) ∧
    ((∀ l, r.reference = some l → l ≠ [] →
        LineShape (transcriptLine P r Field.reference)
          "Reference".toList (sanitize P (join " ".toList l))) ∧
      (r.reference = none ∨ r.reference = some [] →
        transcriptLine P r Field.reference = [])) := by
  refine ⟨?_, ⟨?_, ?_⟩, ⟨?_, ?_⟩, ⟨?_, ?_⟩, ⟨?_, ?_⟩, ⟨?_, ?_⟩, ⟨?_, ?_⟩, ⟨?_, ?_⟩, ⟨?_, ?_⟩,
    ⟨?_, ?_, ?_⟩, ⟨?_, ?_⟩⟩
  · simp [fullText, transcriptLine]
  · intro s h h1 h2
    simp only [transcriptLine, h]
    exact scalarLine_present P _ s h1 h2
  · intro h
    exact scalarLine_absent P _ _ h
  · intro s h h1 h2
    simp only [transcriptLine, h]
    exact scalarLine_present P _ s h1 h2
  · intro h
    exact scalarLine_absent P _ _ h
  · intro l h hl
    simp only [transcriptLine, h]
    exact listLine_shape P _ _ l hl
  · intro h
    exact listLine_absent P _ _ _ h
  · intro l h hl
    simp only [transcriptLine, h]
    exact listLine_shape P _ _ l hl
  · intro h
    exact listLine_absent P _ _ _ h
  · intro l h hl
    simp only [transcriptLine, h]
    exact listLine_shape P _ _ l hl
  · intro h
    exact listLine_absent P _ _ _ h
  · intro l h hl
    simp only [transcriptLine, h]
    exact listLine_shape P _ _ l hl
  · intro h
    exact listLine_absent P _ _ _ h
  · intro l h hl
    simp only [transcriptLine, h]
    exact listLine_shape P _ _ l hl
  · intro h
    exact listLine_absent P _ _ _ h
  · intro l h hl
    simp only [transcriptLine, h]
    have := listLine_shape P "Appendix".toList
      (fun l => join " ".toList (l.map appendixText)) l hl
    have e : l.map appendixText = l.map entryTextSpec :=
      List.map_congr_left (fun e _ => appendixText_eq_spec e)
    simp only [e] at this
    exact this
  · intro h
    exact listLine_absent P _ _ _ h
  · intro l h hl hs
    simp only [transcriptLine, h]
    have := listLine_shape P "Addendum".toList
      (fun l => join " ".toList (l.map addendumText)) l hl
    simp only [map_addendumText_eq_spec l hs] at this
    exact this
  · intro l h hl
    simp only [transcriptLine, h]
    obtain ⟨mid, hmid⟩ := listLine_shape P "Addendum".toList
      (fun l => join " ".toList (l.map addendumText)) l hl
    exact ⟨sanitize P (join " ".toList (l.map addendumText)) ++ mid, by rw [hmid]; simp⟩
  · intro h
    exact listLine_absent P _ _ _ h
  · intro l h hl
    simp only [transcriptLine, h]
    exact listLine_shape P _ _ l hl
  · intro h
    exact listLine_absent P _ _ _ h

/-- The amended C4 at a record with an item number only. -/
theorem fullText_lines_witness :
    transcriptLine plainParser { Record.empty with item := some "SCP-002".toList } Field.item
      = "Item Number: SCP-002\n".toList :=
  ((fullText_lines plainParser { Record.empty with item := some "SCP-002".toList }).2.1.1
    "SCP-002".toList rfl (by decide) (by decide)).trans (by decide)

end SCP
